import Mathlib

/-!
Verification of the StorageManager TRA core: the byte-wise rotation
transform (`TRA.#rotate`), the radix codec
(`ByteArrayConverter.encodeByteArrayToString` /
`decodeStringToByteArray`), and the encrypt/decrypt pipeline.

Bytes are modelled as `Nat` below 256, JavaScript strings as `List Char`
(Unicode scalar values), 32-bit integers as `Nat` bit patterns below
2^32, and JavaScript number arithmetic that feeds bitwise operators as
exact integer arithmetic reduced modulo 2^32 (exact for the ranges the
algorithms produce).
-/

namespace StorageManager

/-- Truncation to 32 bits: the bit pattern a JavaScript `| 0` or any
bitwise operator keeps of an integer operand. -/
def mod32 (x : Nat) : Nat := x % 4294967296

/-- `Math.imul a b`: 32-bit multiplication with wraparound, as a bit
pattern. -/
def imul (a b : Nat) : Nat := a * b % 4294967296

namespace TRA

/-- Entry `i` of the 256-entry mixing table `K` built by `TRA.#rotate`
for a byte sequence of length `len`:
`x = i ^ (len * 0x45d8f3b)`, then
`x = Math.imul(x ^ (x >>> 16), 0x27d4fb2d)`,
`x = Math.imul(x ^ (x >>> 15), 0x175667b1)`,
`x ^= x >>> 16`. -/
def mixK (len i : Nat) : Nat :=
  let x0 := i ^^^ mod32 (len * 0x45d8f3b)
  let x1 := imul (x0 ^^^ (x0 >>> 16)) 0x27d4fb2d
  let x2 := imul (x1 ^^^ (x1 >>> 15)) 0x175667b1
  x2 ^^^ (x2 >>> 16)

/-- The pseudo-random byte offset `TRA.#rotate` derives for position `i`
of a byte sequence of length `len`:
`x = (i + 0x9e3769b9 * len + K[i & 0xff]) | 0`, then the two-round
finalizer `x ^= x >>> 16; x = Math.imul(x, 0x85ebba6b); x ^= x >>> 13;
x = Math.imul(x, 0xc3b2ae35); x ^= x >>> 16`, and finally `x & 0xff`. -/
def offsetAt (len i : Nat) : Nat :=
  let x0 := mod32 (i + 0x9e3769b9 * len + mixK len (i &&& 0xff))
  let x1 := x0 ^^^ (x0 >>> 16)
  let x2 := imul x1 0x85ebba6b
  let x3 := x2 ^^^ (x2 >>> 13)
  let x4 := imul x3 0xc3b2ae35
  let x5 := x4 ^^^ (x4 >>> 16)
  x5 &&& 0xff

/-- The loop of `TRA.#rotate`: position `i` of the result is
`(input[i] + offset * rotation) & 0xff`, with the offset computed from
the full array length `len` and the position. -/
def rotateGo (len : Nat) (rotation : Int) : Nat → List Nat → List Nat
  | _, [] => []
  | i, b :: bs =>
      (((b : Int) + (offsetAt len i : Int) * rotation) % 256).toNat ::
        rotateGo len rotation (i + 1) bs

/-- `TRA.#rotate(uint8Array, rotation)`: identity when `rotation` is
zero (falsy), otherwise the per-position additive shift. -/
def rotate (bytes : List Nat) (rotation : Int) : List Nat :=
  if rotation = 0 then bytes else rotateGo bytes.length rotation 0 bytes

end TRA

namespace ByteArrayConverter

/-- The digit character JavaScript's `Number.prototype.toString(radix)`
emits for a digit value: `0`–`9` then lowercase `a`–`z`. -/
def digitChar (d : Nat) : Char :=
  if d < 10 then Char.ofNat (48 + d) else Char.ofNat (87 + d)

/-- `n.toString(radix)` for a nonnegative integer, by repeated division;
the fuel argument only bounds the recursion. -/
def toRadixAux (radix : Nat) : Nat → Nat → List Char → List Char
  | 0, _, acc => acc
  | fuel + 1, n, acc =>
      if n < radix then digitChar n :: acc
      else toRadixAux radix fuel (n / radix) (digitChar (n % radix) :: acc)

/-- `n.toString(radix)` for a nonnegative integer `n`. -/
def natToString (n radix : Nat) : List Char := toRadixAux radix (n + 1) n []

/-- The chunk width `Math.ceil(Math.log(256) / Math.log(radix))`. For
every radix in [2,36] the IEEE-double computation agrees with the exact
ceiling (checked numerically for all 35 radices), which is the least `C`
with `radix ^ C ≥ 256`; it is computed here as that least `C`. -/
def chunkSize (radix : Nat) : Nat :=
  (List.range 9).findIdx fun c => decide (256 ≤ radix ^ c)

/-- One byte's fixed-width chunk:
`b.toString(radix).padStart(chunkSize, '0')`. -/
def encodeByte (radix b : Nat) : List Char :=
  let d := natToString b radix
  List.replicate (chunkSize radix - d.length) '0' ++ d

/-- The Base64 alphabet character for a 6-bit value, as used by `btoa`. -/
def b64Char (v : Nat) : Char :=
  if v < 26 then Char.ofNat (65 + v)
  else if v < 52 then Char.ofNat (97 + (v - 26))
  else if v < 62 then Char.ofNat (48 + (v - 52))
  else if v = 62 then '+' else '/'

/-- The 6-bit groups of the standard Base64 encoding of a byte
sequence (padding characters not included). -/
def b64Vals : List Nat → List Nat
  | b1 :: b2 :: b3 :: rest =>
      b1 / 4 :: (b1 % 4 * 16 + b2 / 16) :: (b2 % 16 * 4 + b3 / 64) :: b3 % 64 ::
        b64Vals rest
  | [b1, b2] => [b1 / 4, b1 % 4 * 16 + b2 / 16, b2 % 16 * 4]
  | [b1] => [b1 / 4, b1 % 4 * 16]
  | [] => []

/-- The `=` padding `btoa` appends: two for a final 1-byte group, one
for a final 2-byte group. -/
def b64Pad (B : List Nat) : List Char :=
  if B.length % 3 = 1 then ['=', '=']
  else if B.length % 3 = 2 then ['=']
  else []

/-- `btoa` applied to the binary string holding the bytes of `B`:
standard Base64 with padding. -/
def b64Encode (B : List Nat) : List Char := (b64Vals B).map b64Char ++ b64Pad B

/-- The 6-bit value of a Base64 alphabet character, `none` outside the
alphabet. -/
def b64CharVal (c : Char) : Option Nat :=
  let n := c.toNat
  if 65 ≤ n ∧ n ≤ 90 then some (n - 65)
  else if 97 ≤ n ∧ n ≤ 122 then some (n - 97 + 26)
  else if 48 ≤ n ∧ n ≤ 57 then some (n - 48 + 52)
  else if c = '+' then some 62
  else if c = '/' then some 63
  else none

/-- ASCII whitespace removed by forgiving-base64 (TAB, LF, FF, CR,
SPACE). -/
def isAsciiWs (c : Char) : Bool :=
  c.toNat == 9 || c.toNat == 10 || c.toNat == 12 || c.toNat == 13 || c.toNat == 32

/-- Reassemble bytes from 6-bit groups; a trailing group of one value is
a decode error. -/
def b64Unvals : List Nat → Option (List Nat)
  | v1 :: v2 :: v3 :: v4 :: rest =>
      (b64Unvals rest).map fun bs =>
        (v1 * 4 + v2 / 16) :: (v2 % 16 * 16 + v3 / 4) :: (v3 % 4 * 64 + v4) :: bs
  | [v1, v2, v3] => some [v1 * 4 + v2 / 16, v2 % 16 * 16 + v3 / 4]
  | [v1, v2] => some [v1 * 4 + v2 / 16]
  | [_] => none
  | [] => some []

/-- Strip one or two trailing `=` characters (forgiving-base64, applied
when the length is a multiple of four). -/
def b64StripPad (s : List Char) : List Char :=
  if s.getLast? = some '=' then
    if s.dropLast.getLast? = some '=' then s.dropLast.dropLast else s.dropLast
  else s

/-- `atob`: the forgiving-base64 decode. Remove ASCII whitespace, strip
padding when the length is a multiple of four, fail on a length ≡ 1
mod 4 or on a character outside the alphabet, else rebuild the bytes;
`none` models the `InvalidCharacterError` that `atob` throws. -/
def b64Decode (s0 : List Char) : Option (List Nat) :=
  let s1 := s0.filter fun c => !(isAsciiWs c)
  let s := if s1.length % 4 = 0 then b64StripPad s1 else s1
  if s.length % 4 = 1 then none
  else match s.mapM b64CharVal with
    | none => none
    | some vals => b64Unvals vals

/-- The string whitespace `parseInt` skips (ECMAScript StrWhiteSpace). -/
def isJsWs (c : Char) : Bool :=
  c.toNat == 9 || c.toNat == 10 || c.toNat == 11 || c.toNat == 12 ||
  c.toNat == 13 || c.toNat == 32 || c.toNat == 160 || c.toNat == 0x1680 ||
  decide (0x2000 ≤ c.toNat ∧ c.toNat ≤ 0x200A) ||
  c.toNat == 0x2028 || c.toNat == 0x2029 || c.toNat == 0x202F ||
  c.toNat == 0x205F || c.toNat == 0x3000 || c.toNat == 0xFEFF

/-- The digit value of a character as `parseInt` reads it
(case-insensitive `0`–`9`, `a`–`z`, `A`–`Z`); `none` for any other
character. -/
def digitVal (c : Char) : Option Nat :=
  let n := c.toNat
  if 48 ≤ n ∧ n ≤ 57 then some (n - 48)
  else if 97 ≤ n ∧ n ≤ 122 then some (n - 87)
  else if 65 ≤ n ∧ n ≤ 90 then some (n - 55)
  else none

/-- Whether `c` is a valid digit in the given radix. -/
def isRadixDigit (radix : Nat) (c : Char) : Bool :=
  match digitVal c with
  | some v => decide (v < radix)
  | none => false

/-- The numeric value of a digit string, most significant digit first. -/
def digitsVal (radix : Nat) (ds : List Char) : Nat :=
  ds.foldl (fun a c => a * radix + (digitVal c).getD 0) 0

/-- `parseInt(s, radix)` for a radix in [2,36]: skip whitespace, read an
optional sign, strip a `0x`/`0X` prefix when the radix is 16, then take
the longest prefix of valid digits; `none` models `NaN` (no digits). -/
def parseIntJS (s : List Char) (radix : Nat) : Option Int :=
  let s1 := s.dropWhile isJsWs
  let sign : Int := if s1.headD ' ' = '-' then -1 else 1
  let s2 := if s1.headD ' ' = '-' ∨ s1.headD ' ' = '+' then s1.tail else s1
  let s3 :=
    if radix = 16 ∧ s2.headD ' ' = '0' ∧
        (s2.tail.headD ' ' = 'x' ∨ s2.tail.headD ' ' = 'X') then
      s2.tail.tail
    else s2
  let ds := s3.takeWhile (isRadixDigit radix)
  if ds.isEmpty then none
  else some (sign * (digitsVal radix ds : Int))

/-- `result[i] = parseInt(chunk, radix) || 0`: `NaN` becomes 0 via
`|| 0`, and the `Uint8Array` store reduces the value modulo 256. -/
def parsedByte (s : List Char) (radix : Nat) : Nat :=
  (((parseIntJS s radix).getD 0) % 256).toNat

/-- The decode loop of `decodeStringToByteArray`: `k` chunks, each a
`chunkSize`-character slice of the remaining input (the last slice may
be shorter). -/
def decodeLoop (radix : Nat) : List Char → Nat → List Nat
  | _, 0 => []
  | s, k + 1 =>
      parsedByte (s.take (chunkSize radix)) radix ::
        decodeLoop radix (s.drop (chunkSize radix)) k

/-- `ByteArrayConverter.encodeByteArrayToString(byteArray, radix)` after
radix validation: Base64 for radix 64, otherwise the fixed-width chunk
encoding joined in input order. -/
def encodeByteArrayToString (byteArray : List Nat) (radix : Nat) : List Char :=
  if radix = 64 then b64Encode byteArray
  else (byteArray.map (encodeByte radix)).flatten

/-- `ByteArrayConverter.decodeStringToByteArray(encodedString, radix)`
after radix validation: `atob` for radix 64 (`none` models the throw),
otherwise `Math.ceil(length / chunkSize)` slices parsed in order. -/
def decodeStringToByteArray (s : List Char) (radix : Nat) : Option (List Nat) :=
  if radix = 64 then b64Decode s
  else some (decodeLoop radix s ((s.length + (chunkSize radix - 1)) / chunkSize radix))

end ByteArrayConverter

/-- The UTF-8 bytes `TextEncoder` produces for one Unicode scalar
value. -/
def utf8EncodeChar (c : Char) : List Nat :=
  let n := c.toNat
  if n < 0x80 then [n]
  else if n < 0x800 then [0xC0 + n / 64, 0x80 + n % 64]
  else if n < 0x10000 then [0xE0 + n / 4096, 0x80 + n / 64 % 64, 0x80 + n % 64]
  else [0xF0 + n / 0x40000, 0x80 + n / 4096 % 64, 0x80 + n / 64 % 64, 0x80 + n % 64]

/-- `new TextEncoder().encode(string)`: the UTF-8 encoding of a
well-formed string, modelled as a list of Unicode scalar values. -/
def utf8Encode (s : List Char) : List Nat := (s.map utf8EncodeChar).flatten

/-- U+FFFD, the replacement character the non-fatal `TextDecoder`
substitutes for malformed input. -/
def replChar : Char := Char.ofNat 0xFFFD

/-- Whether a byte is a UTF-8 continuation byte (0x80-0xBF). -/
def contByte (x : Nat) : Bool := decide (0x80 ≤ x ∧ x < 0xC0)

/-- The WHATWG-accepted range for the second byte of a three-byte
sequence headed by `b` (narrowed for 0xE0 and 0xED to exclude overlong
forms and surrogates). -/
def lead3Snd (b b2 : Nat) : Bool :=
  if b = 0xE0 then decide (0xA0 ≤ b2 ∧ b2 < 0xC0)
  else if b = 0xED then decide (0x80 ≤ b2 ∧ b2 < 0xA0)
  else contByte b2

/-- The WHATWG-accepted range for the second byte of a four-byte
sequence headed by `b` (narrowed for 0xF0 and 0xF4 to exclude overlong
forms and code points above U+10FFFF). -/
def lead4Snd (b b2 : Nat) : Bool :=
  if b = 0xF0 then decide (0x90 ≤ b2 ∧ b2 < 0xC0)
  else if b = 0xF4 then decide (0x80 ≤ b2 ∧ b2 < 0x90)
  else contByte b2

/-- One step of the WHATWG UTF-8 decoder at lead byte `b` with
lookahead `bs`: the scalar value produced (U+FFFD on a malformed or
truncated sequence) and the number of bytes consumed, so that a
malformed sequence is reprocessed from its first unconsumed byte. -/
def utf8Step (b : Nat) (bs : List Nat) : Char × Nat :=
  if b < 0x80 then (Char.ofNat b, 1)
  else if b < 0xC2 then (replChar, 1)
  else if b < 0xE0 then
    match bs with
    | [] => (replChar, 1)
    | b2 :: _ =>
      if contByte b2 then (Char.ofNat ((b - 0xC0) * 64 + (b2 - 0x80)), 2)
      else (replChar, 1)
  else if b < 0xF0 then
    match bs with
    | [] => (replChar, 1)
    | [b2] => if lead3Snd b b2 then (replChar, 2) else (replChar, 1)
    | b2 :: b3 :: _ =>
      if lead3Snd b b2 then
        if contByte b3 then
          (Char.ofNat ((b - 0xE0) * 4096 + (b2 - 0x80) * 64 + (b3 - 0x80)), 3)
        else (replChar, 2)
      else (replChar, 1)
  else if b < 0xF5 then
    match bs with
    | [] => (replChar, 1)
    | [b2] => if lead4Snd b b2 then (replChar, 2) else (replChar, 1)
    | [b2, b3] =>
      if lead4Snd b b2 then
        if contByte b3 then (replChar, 3) else (replChar, 2)
      else (replChar, 1)
    | b2 :: b3 :: b4 :: _ =>
      if lead4Snd b b2 then
        if contByte b3 then
          if contByte b4 then
            (Char.ofNat
                ((b - 0xF0) * 0x40000 + (b2 - 0x80) * 4096 +
                  (b3 - 0x80) * 64 + (b4 - 0x80)),
              4)
          else (replChar, 3)
        else (replChar, 2)
      else (replChar, 1)
  else (replChar, 1)

/-- `new TextDecoder().decode(bytes)`: the WHATWG UTF-8 decoder in its
default non-fatal mode, iterating `utf8Step`. -/
def utf8Decode : List Nat → List Char
  | [] => []
  | b :: bs =>
    (utf8Step b bs).1 :: utf8Decode (bs.drop ((utf8Step b bs).2 - 1))
termination_by l => l.length
decreasing_by simp only [List.length_drop, List.length_cons]; omega

/-- A radix the validators accept: an integer in [2,36] or exactly 64. -/
def validRadix (radix : Nat) : Prop := (2 ≤ radix ∧ radix ≤ 36) ∨ radix = 64

instance (radix : Nat) : Decidable (validRadix radix) := by
  unfold validRadix
  exact inferInstance

namespace TRA

/-- `TRA.encrypt(string, radix)`: UTF-8 encode the plaintext, rotate
with direction +1, radix-encode. -/
def encrypt (s : List Char) (radix : Nat) : List Char :=
  ByteArrayConverter.encodeByteArrayToString (rotate (utf8Encode s) 1) radix

/-- `TRA.decrypt(string, radix)`: radix-decode (`none` when Base64
decoding throws), rotate with direction -1, UTF-8 decode. -/
def decrypt (s : List Char) (radix : Nat) : Option (List Char) :=
  (ByteArrayConverter.decodeStringToByteArray s radix).map fun B =>
    utf8Decode (rotate B (-1))

end TRA

/-- The JavaScript error kinds the validators can raise; `atob` raises
`InvalidCharacterError`, a third, distinct kind. -/
inductive JsError
  | typeError
  | rangeError
  | invalidCharacterError
deriving DecidableEq

namespace ByteArrayConverter

/-- `encodeByteArrayToString` with its radix validation. The radix is a
JavaScript number, modelled as a rational: `Number.isInteger(radix)`
fails with a `TypeError`, then `(radix < 2 || radix > 36) && radix !==
64` fails with a `RangeError`, both before any encoding work. -/
def encodeChecked (byteArray : List Nat) (radix : ℚ) : Except JsError (List Char) :=
  if ¬ radix.isInt then .error .typeError
  else if (radix < 2 ∨ radix > 36) ∧ radix ≠ 64 then .error .rangeError
  else .ok (encodeByteArrayToString byteArray radix.num.toNat)

/-- `decodeStringToByteArray` with the same radix validation, performed
before any decoding; a Base64 decoding failure afterwards surfaces as
`atob`'s `InvalidCharacterError`. -/
def decodeChecked (s : List Char) (radix : ℚ) : Except JsError (List Nat) :=
  if ¬ radix.isInt then .error .typeError
  else if (radix < 2 ∨ radix > 36) ∧ radix ≠ 64 then .error .rangeError
  else
    (decodeStringToByteArray s radix.num.toNat).elim
      (.error .invalidCharacterError) .ok

end ByteArrayConverter

namespace TRA

theorem rotateGo_length (len : Nat) (rotation : Int) :
    ∀ (i : Nat) (bs : List Nat), (rotateGo len rotation i bs).length = bs.length := by
  intro i bs
  induction bs generalizing i with
  | nil => rfl
  | cons b bs ih => simp [rotateGo, ih]

theorem rotate_length (bytes : List Nat) (rotation : Int) :
    (rotate bytes rotation).length = bytes.length := by
  unfold rotate
  split
  · rfl
  · exact rotateGo_length _ _ _ _

theorem rotateGo_rotateGo_cancel (len : Nat) (r : Int) (hr : r = 1 ∨ r = -1) :
    ∀ (i : Nat) (bs : List Nat), (∀ b ∈ bs, b < 256) →
      rotateGo len (-r) i (rotateGo len r i bs) = bs := by
  intro i bs
  induction bs generalizing i with
  | nil => intro _; rfl
  | cons b bs ih =>
      intro hb
      have hb0 : b < 256 := hb b (List.mem_cons_self b bs)
      have hbs : ∀ x ∈ bs, x < 256 := fun x hx => hb x (List.mem_cons_of_mem b hx)
      simp only [rotateGo, ih (i + 1) hbs, List.cons.injEq, and_true]
      rcases hr with h | h <;> subst h <;> omega

theorem rotateGo_all_lt (len : Nat) (rotation : Int) :
    ∀ (i : Nat) (bs : List Nat), ∀ b ∈ rotateGo len rotation i bs, b < 256 := by
  intro i bs
  induction bs generalizing i with
  | nil => intro b hb; simp [rotateGo] at hb
  | cons x xs ih =>
      intro b hb
      simp only [rotateGo, List.mem_cons] at hb
      rcases hb with h | h
      · subst h; omega
      · exact ih (i + 1) b h

theorem rotate_all_lt (bytes : List Nat) (rotation : Int)
    (h : ∀ b ∈ bytes, b < 256) : ∀ b ∈ rotate bytes rotation, b < 256 := by
  unfold rotate
  split
  · exact h
  · exact rotateGo_all_lt _ _ _ _

theorem rotate_symm_aux (B : List Nat) (hB : ∀ b ∈ B, b < 256) :
    rotate (rotate B 1) (-1) = B ∧ rotate (rotate B (-1)) 1 = B := by
  constructor
  · have hlen : (rotate B 1).length = B.length := rotate_length B 1
    show rotate (rotate B 1) (-1) = B
    unfold rotate
    simp only [if_neg (by decide : ¬ ((-1 : Int) = 0)), if_neg (by decide : ¬ ((1 : Int) = 0))]
    rw [rotateGo_length, ← neg_one_mul, ← show (-(1 : Int)) = -1 from rfl]
    exact_mod_cast rotateGo_rotateGo_cancel B.length 1 (Or.inl rfl) 0 B hB
  · unfold rotate
    simp only [if_neg (by decide : ¬ ((-1 : Int) = 0)), if_neg (by decide : ¬ ((1 : Int) = 0))]
    rw [rotateGo_length]
    have h := rotateGo_rotateGo_cancel B.length (-1) (Or.inr rfl) 0 B hB
    simpa using h

/-- C2: rotating a byte sequence with direction `+1` and then `-1` (or
`-1` then `+1`) restores every byte: the offset at each position depends
only on the length and the position, so it is added then subtracted
modulo 256. -/
theorem rotate_symm (B : List Nat) (hB : ∀ b ∈ B, b < 256) :
    rotate (rotate B 1) (-1) = B ∧ rotate (rotate B (-1)) 1 = B :=
  rotate_symm_aux B hB

end TRA

namespace ByteArrayConverter

set_option maxRecDepth 10000 in
theorem chunkSize_least : ∀ r < 37, 2 ≤ r →
    256 ≤ r ^ chunkSize r ∧ (∀ c < chunkSize r, r ^ c < 256) ∧
    2 ≤ chunkSize r ∧ chunkSize r ≤ 8 := by decide

theorem digitChar_facts : ∀ d < 36,
    isJsWs (digitChar d) = false ∧ digitChar d ≠ '-' ∧ digitChar d ≠ '+' ∧
    digitVal (digitChar d) = some d ∧ digitChar d ≠ 'X' ∧
    (d < 16 → digitChar d ≠ 'x') := by decide

theorem toRadixAux_spec (r : Nat) (hr2 : 2 ≤ r) (hr36 : r ≤ 36) :
    ∀ (fuel n : Nat) (acc : List Char), n < fuel →
      ∃ D, toRadixAux r fuel n acc = D ++ acc ∧ D ≠ [] ∧
        (∀ c ∈ D, ∃ d, d < r ∧ c = digitChar d) ∧
        (∀ a, List.foldl (fun a c => a * r + (digitVal c).getD 0) a D
            = a * r ^ D.length + n) ∧
        (∀ k, 0 < k → n < r ^ k → D.length ≤ k) := by
  intro fuel
  induction fuel with
  | zero => intro n acc h; omega
  | succ fuel ih =>
    intro n acc h
    by_cases hn : n < r
    · refine ⟨[digitChar n], by simp [toRadixAux, hn], by simp, ?_, ?_, ?_⟩
      · intro c hc
        simp only [List.mem_singleton] at hc
        exact ⟨n, hn, hc⟩
      · intro a
        have hd := (digitChar_facts n (by omega)).2.2.2.1
        simp [hd, pow_one]
      · intro k hk _
        simpa using hk
    · have hn0 : 0 < n := by omega
      have hdiv : n / r < fuel := by
        have h1 : n / r < n := Nat.div_lt_self hn0 (by omega)
        omega
      obtain ⟨D, hEq, hNe, hDig, hVal, hLen⟩ :=
        ih (n / r) (digitChar (n % r) :: acc) hdiv
      have hmod : n % r < r := Nat.mod_lt n (by omega)
      refine ⟨D ++ [digitChar (n % r)], ?_, by simp, ?_, ?_, ?_⟩
      · simp [toRadixAux, hn, hEq]
      · intro c hc
        rcases List.mem_append.mp hc with h1 | h1
        · exact hDig c h1
        · simp only [List.mem_singleton] at h1
          exact ⟨n % r, hmod, h1⟩
      · intro a
        have hd := (digitChar_facts (n % r) (by omega)).2.2.2.1
        rw [List.foldl_append, hVal a]
        simp only [List.foldl_cons, List.foldl_nil, hd, Option.getD_some,
          List.length_append, List.length_singleton]
        calc (a * r ^ D.length + n / r) * r + n % r
            = a * (r ^ D.length * r) + (r * (n / r) + n % r) := by ring
          _ = a * r ^ (D.length + 1) + n := by rw [Nat.div_add_mod, pow_succ]
      · intro k hk hnk
        have hk2 : 2 ≤ k := by
          rcases Nat.lt_or_ge k 2 with hlt | hge
          · interval_cases k
            · exact absurd hnk (by simp [pow_one]; omega)
          · exact hge
        have hq : n / r < r ^ (k - 1) := by
          rw [Nat.div_lt_iff_lt_mul (by omega : 0 < r)]
          have hpow : r ^ (k - 1) * r = r ^ k := by
            rw [← pow_succ]
            congr 1
            omega
          omega
        have := hLen (k - 1) (by omega) hq
        simp only [List.length_append, List.length_singleton]
        omega

theorem natToString_spec (b r : Nat) (hr2 : 2 ≤ r) (hr36 : r ≤ 36) :
    ∃ D, natToString b r = D ∧ D ≠ [] ∧
      (∀ c ∈ D, ∃ d, d < r ∧ c = digitChar d) ∧
      (∀ a, List.foldl (fun a c => a * r + (digitVal c).getD 0) a D
          = a * r ^ D.length + b) ∧
      (∀ k, 0 < k → b < r ^ k → D.length ≤ k) := by
  obtain ⟨D, hEq, hrest⟩ := toRadixAux_spec r hr2 hr36 (b + 1) b [] (by omega)
  exact ⟨D, by simpa [natToString] using hEq, hrest⟩

theorem takeWhile_all {p : Char → Bool} :
    ∀ l : List Char, (∀ c ∈ l, p c = true) → l.takeWhile p = l := by
  intro l h
  induction l with
  | nil => rfl
  | cons c cs ih =>
      rw [List.takeWhile_cons, h c (by simp)]
      simp [ih fun x hx => h x (List.mem_cons_of_mem _ hx)]

theorem parseIntJS_digits (r : Nat) (hr2 : 2 ≤ r) (hr36 : r ≤ 36) :
    ∀ (chunk : List Char), chunk ≠ [] →
      (∀ c ∈ chunk, ∃ d, d < r ∧ c = digitChar d) →
      parseIntJS chunk r = some ((digitsVal r chunk : Int)) := by
  intro chunk hne hdig
  obtain ⟨c0, rest, rfl⟩ : ∃ c0 rest, chunk = c0 :: rest := by
    cases chunk with
    | nil => exact absurd rfl hne
    | cons a l => exact ⟨a, l, rfl⟩
  obtain ⟨d0, hd0r, hc0⟩ := hdig c0 (by simp)
  have hf0 := digitChar_facts d0 (by omega)
  have hws : isJsWs c0 = false := by rw [hc0]; exact hf0.1
  have hminus : ¬ c0 = '-' := by rw [hc0]; exact hf0.2.1
  have hplus : ¬ c0 = '+' := by rw [hc0]; exact hf0.2.2.1
  have hprd : ∀ c ∈ c0 :: rest, isRadixDigit r c = true := by
    intro c hc
    obtain ⟨d, hdr, rfl⟩ := hdig c hc
    have hv := (digitChar_facts d (by omega)).2.2.2.1
    simp [isRadixDigit, hv, hdr]
  have hcond :
      ¬ (r = 16 ∧ c0 = '0' ∧
          (rest.headD ' ' = 'x' ∨ rest.headD ' ' = 'X')) := by
    rintro ⟨hr16, -, hx⟩
    cases rest with
    | nil => simp at hx
    | cons c1 t =>
        obtain ⟨d1, hd1r, hc1⟩ := hdig c1 (by simp)
        have hf1 := digitChar_facts d1 (by omega)
        simp only [List.headD_cons] at hx
        rcases hx with hx | hx
        · exact (hf1.2.2.2.2.2 (by omega)) (hc1 ▸ hx)
        · exact hf1.2.2.2.2.1 (hc1 ▸ hx)
  rw [parseIntJS]
  simp only [List.dropWhile_cons, hws, Bool.false_eq_true, if_false,
    List.headD_cons, List.tail_cons, if_neg hminus,
    if_neg (show ¬ (c0 = '-' ∨ c0 = '+') by tauto), if_neg hcond,
    takeWhile_all _ hprd, List.isEmpty_cons, one_mul]

theorem foldl_digit_zeros (r : Nat) :
    ∀ m, List.foldl (fun a c => a * r + (digitVal c).getD 0) 0
        (List.replicate m '0') = 0 := by
  intro m
  induction m with
  | zero => rfl
  | succ m ih =>
      have h0 : (digitVal '0').getD 0 = 0 := by decide
      simpa [List.replicate_succ, h0] using ih

theorem parsedByte_encodeByte (r b : Nat) (hr2 : 2 ≤ r) (hr36 : r ≤ 36)
    (hb : b < 256) : parsedByte (encodeByte r b) r = b := by
  obtain ⟨D, hD, hne, hdig, hval, hlen⟩ := natToString_spec b r hr2 hr36
  have hchunk : encodeByte r b = List.replicate (chunkSize r - D.length) '0' ++ D := by
    simp [encodeByte, hD]
  have hdig' : ∀ c ∈ List.replicate (chunkSize r - D.length) '0' ++ D,
      ∃ d, d < r ∧ c = digitChar d := by
    intro c hc
    rcases List.mem_append.mp hc with h | h
    · have h0 := List.eq_of_mem_replicate h
      exact ⟨0, by omega, by rw [h0]; decide⟩
    · exact hdig c h
  have hne' : List.replicate (chunkSize r - D.length) '0' ++ D ≠ [] := by
    simp [hne]
  have hpi := parseIntJS_digits r hr2 hr36 _ hne' hdig'
  have hval0 : digitsVal r (List.replicate (chunkSize r - D.length) '0' ++ D) = b := by
    unfold digitsVal
    rw [List.foldl_append, foldl_digit_zeros]
    simpa using hval 0
  rw [parsedByte, hchunk, hpi, hval0]
  simp only [Option.getD_some]
  omega

theorem encodeByte_length (r b : Nat) (hr2 : 2 ≤ r) (hr36 : r ≤ 36)
    (hb : b < 256) : (encodeByte r b).length = chunkSize r := by
  obtain ⟨D, hD, hne, hdig, hval, hlen⟩ := natToString_spec b r hr2 hr36
  obtain ⟨hle, hlt, hcs2, hcs8⟩ := chunkSize_least r (by omega) hr2
  have hDlen : D.length ≤ chunkSize r := hlen (chunkSize r) (by omega) (by omega)
  simp [encodeByte, hD]
  omega

theorem b64Char_facts : ∀ v < 64,
    isAsciiWs (b64Char v) = false ∧ b64Char v ≠ '=' ∧
    b64CharVal (b64Char v) = some v := by decide

theorem b64Vals_lt (B : List Nat) (hB : ∀ b ∈ B, b < 256) :
    ∀ v ∈ b64Vals B, v < 64 := by
  induction B using b64Vals.induct with
  | case1 b1 b2 b3 rest ih =>
      intro v hv
      have h1 : b1 < 256 := hB b1 (by simp)
      have h2 : b2 < 256 := hB b2 (by simp)
      have h3 : b3 < 256 := hB b3 (by simp)
      simp only [b64Vals, List.mem_cons] at hv
      rcases hv with h | h | h | h | h
      · omega
      · omega
      · omega
      · omega
      · exact ih (fun b hb => hB b (by simp [hb])) v h
  | case2 b1 b2 =>
      intro v hv
      have h1 : b1 < 256 := hB b1 (by simp)
      have h2 : b2 < 256 := hB b2 (by simp)
      simp only [b64Vals, List.mem_cons] at hv
      rcases hv with h | h | h | h <;> first | omega | simp_all
  | case3 b1 =>
      intro v hv
      have h1 : b1 < 256 := hB b1 (by simp)
      simp only [b64Vals, List.mem_cons] at hv
      rcases hv with h | h | h <;> first | omega | simp_all
  | case4 => intro v hv; simp [b64Vals] at hv

theorem b64Vals_length (B : List Nat) :
    (b64Vals B).length = B.length / 3 * 4 +
      (if B.length % 3 = 0 then 0 else if B.length % 3 = 1 then 2 else 3) := by
  induction B using b64Vals.induct with
  | case1 b1 b2 b3 rest ih =>
      simp only [b64Vals, List.length_cons] at ih ⊢
      split_ifs at ih ⊢ <;> omega
  | case2 b1 b2 => simp [b64Vals]
  | case3 b1 => simp [b64Vals]
  | case4 => simp [b64Vals]

theorem b64Unvals_b64Vals (B : List Nat) (hB : ∀ b ∈ B, b < 256) :
    b64Unvals (b64Vals B) = some B := by
  induction B using b64Vals.induct with
  | case1 b1 b2 b3 rest ih =>
      have h1 : b1 < 256 := hB b1 (by simp)
      have h2 : b2 < 256 := hB b2 (by simp)
      have h3 : b3 < 256 := hB b3 (by simp)
      have ihr := ih (fun b hb => hB b (by simp [hb]))
      simp only [b64Vals, b64Unvals, ihr, Option.map_some]
      refine congrArg some ?_
      refine List.cons_eq_cons.mpr ⟨by omega, ?_⟩
      refine List.cons_eq_cons.mpr ⟨by omega, ?_⟩
      exact List.cons_eq_cons.mpr ⟨by omega, rfl⟩
  | case2 b1 b2 =>
      have h1 : b1 < 256 := hB b1 (by simp)
      have h2 : b2 < 256 := hB b2 (by simp)
      simp only [b64Vals, b64Unvals]
      refine congrArg some ?_
      refine List.cons_eq_cons.mpr ⟨by omega, ?_⟩
      exact congrArg (· :: []) (by omega)
  | case3 b1 =>
      have h1 : b1 < 256 := hB b1 (by simp)
      simp only [b64Vals, b64Unvals]
      exact congrArg some (congrArg (· :: []) (by omega))
  | case4 => rfl

theorem mapM_b64CharVal (vals : List Nat) (h : ∀ v ∈ vals, v < 64) :
    (vals.map b64Char).mapM b64CharVal = some vals := by
  induction vals with
  | nil => rfl
  | cons v vs ih =>
      have hv := (b64Char_facts v (h v (by simp))).2.2
      simp only [List.map_cons, List.mapM_cons, hv,
        ih (fun x hx => h x (List.mem_cons_of_mem _ hx)), Option.pure_def,
        Option.bind_some, Option.bind_eq_bind]
      rfl

theorem b64Encode_no_ws (B : List Nat) (hB : ∀ b ∈ B, b < 256) :
    (b64Encode B).filter (fun c => !(isAsciiWs c)) = b64Encode B := by
  rw [List.filter_eq_self]
  intro c hc
  rcases List.mem_append.mp hc with h | h
  · obtain ⟨v, hv, rfl⟩ := List.mem_map.mp h
    have hf := (b64Char_facts v (b64Vals_lt B hB v hv)).1
    simp [hf]
  · have hc' : c = '=' := by
      unfold b64Pad at h
      split_ifs at h <;> simp_all
    subst hc'
    decide

theorem b64Chars_ne_pad (B : List Nat) (hB : ∀ b ∈ B, b < 256) :
    ∀ c ∈ (b64Vals B).map b64Char, c ≠ '=' := by
  intro c hc
  obtain ⟨v, hv, rfl⟩ := List.mem_map.mp hc
  exact (b64Char_facts v (b64Vals_lt B hB v hv)).2.1

theorem b64StripPad_no_pad (s : List Char) (h : ∀ c ∈ s, c ≠ '=') :
    b64StripPad s = s := by
  have hlast : ¬ s.getLast? = some '=' := by
    intro hl
    exact h '=' (List.mem_of_mem_getLast? (by simp [hl])) rfl
  rw [b64StripPad, if_neg hlast]

theorem b64StripPad_encode (B : List Nat) (hB : ∀ b ∈ B, b < 256) :
    b64StripPad ((b64Vals B).map b64Char ++ b64Pad B) = (b64Vals B).map b64Char := by
  have hne := b64Chars_ne_pad B hB
  rcases h3 : B.length % 3 with _ | _ | k
  · rw [show b64Pad B = [] by simp [b64Pad, h3], List.append_nil]
    exact b64StripPad_no_pad _ hne
  · rw [show b64Pad B = ['=', '='] by simp [b64Pad, h3]]
    rw [show (b64Vals B).map b64Char ++ ['=', '='] =
        ((b64Vals B).map b64Char ++ ['=']) ++ ['='] by simp]
    rw [b64StripPad, List.getLast?_concat, if_pos rfl, List.dropLast_concat,
      List.getLast?_concat, if_pos rfl, List.dropLast_concat]
  · have h32 : B.length % 3 = 2 := by omega
    rw [show b64Pad B = ['='] by simp [b64Pad, h32]]
    have hlast : ¬ ((b64Vals B).map b64Char).getLast? = some '=' := by
      intro hl
      exact hne '=' (List.mem_of_mem_getLast? (by simp [hl])) rfl
    rw [b64StripPad, List.getLast?_concat, if_pos rfl, List.dropLast_concat,
      if_neg hlast]

theorem b64Encode_length_mod (B : List Nat) : (b64Encode B).length % 4 = 0 := by
  have hlen := b64Vals_length B
  simp only [b64Encode, b64Pad, List.length_append, List.length_map]
  split_ifs at hlen ⊢ <;>
    simp only [List.length_cons, List.length_nil] at hlen ⊢ <;> omega

theorem b64Decode_b64Encode (B : List Nat) (hB : ∀ b ∈ B, b < 256) :
    b64Decode (b64Encode B) = some B := by
  have hvlt := b64Vals_lt B hB
  have hlen := b64Vals_length B
  simp only [b64Decode]
  rw [b64Encode_no_ws B hB, if_pos (b64Encode_length_mod B)]
  rw [show b64Encode B = (b64Vals B).map b64Char ++ b64Pad B from rfl]
  rw [b64StripPad_encode B hB]
  have hmod : ¬ ((b64Vals B).map b64Char).length % 4 = 1 := by
    rw [List.length_map, hlen]
    split_ifs <;> omega
  rw [if_neg hmod, mapM_b64CharVal (b64Vals B) hvlt]
  exact b64Unvals_b64Vals B hB

theorem flatten_encode_length (r : Nat) (hr2 : 2 ≤ r) (hr36 : r ≤ 36) :
    ∀ B : List Nat, (∀ b ∈ B, b < 256) →
      ((B.map (encodeByte r)).flatten).length = B.length * chunkSize r := by
  intro B hB
  induction B with
  | nil => simp
  | cons b bs ih =>
      have hb : b < 256 := hB b (by simp)
      have ihr := ih fun x hx => hB x (by simp [hx])
      simp only [List.map_cons, List.flatten_cons, List.length_append,
        encodeByte_length r b hr2 hr36 hb, ihr, List.length_cons]
      ring

theorem decodeLoop_encode (r : Nat) (hr2 : 2 ≤ r) (hr36 : r ≤ 36) :
    ∀ B : List Nat, (∀ b ∈ B, b < 256) →
      decodeLoop r ((B.map (encodeByte r)).flatten) B.length = B := by
  intro B
  induction B with
  | nil => intro _; rfl
  | cons b bs ih =>
      intro hB
      have hb : b < 256 := hB b (by simp)
      have hlen : (encodeByte r b).length = chunkSize r :=
        encodeByte_length r b hr2 hr36 hb
      simp only [List.map_cons, List.flatten_cons, List.length_cons, decodeLoop]
      rw [List.take_left' hlen, List.drop_left' hlen,
        parsedByte_encodeByte r b hr2 hr36 hb,
        ih fun x hx => hB x (by simp [hx])]

theorem ceil_div_exact (N C : Nat) (hC : 0 < C) : (N * C + (C - 1)) / C = N := by
  rw [Nat.add_comm, Nat.add_mul_div_right _ _ hC, Nat.div_eq_of_lt (by omega)]
  omega

theorem codec_round_trip_aux (B : List Nat) (radix : Nat) (hr : validRadix radix)
    (hB : ∀ b ∈ B, b < 256) :
    decodeStringToByteArray (encodeByteArrayToString B radix) radix = some B := by
  rcases hr with ⟨hr2, hr36⟩ | h64
  · have hne : ¬ radix = 64 := by omega
    obtain ⟨-, -, hcs2, -⟩ := chunkSize_least radix (by omega) hr2
    rw [encodeByteArrayToString, if_neg hne, decodeStringToByteArray, if_neg hne]
    rw [flatten_encode_length radix hr2 hr36 B hB,
      ceil_div_exact B.length (chunkSize radix) (by omega),
      decodeLoop_encode radix hr2 hr36 B hB]
  · subst h64
    rw [encodeByteArrayToString, if_pos rfl, decodeStringToByteArray, if_pos rfl]
    exact b64Decode_b64Encode B hB

/-- C3: for every byte sequence (the empty one included) and every
valid radix, decoding the encoding returns exactly the input bytes: the
radix codec is losslessly reversible, for the fixed-width chunk codec
as well as for Base64. -/
theorem codec_round_trip (B : List Nat) (radix : Nat) (hr : validRadix radix)
    (hB : ∀ b ∈ B, b < 256) :
    decodeStringToByteArray (encodeByteArrayToString B radix) radix = some B :=
  codec_round_trip_aux B radix hr hB

/-- C4: for every byte sequence and radix in [2,36], the encoding has
length exactly `N * C` where `C = chunkSize radix` is the smallest
integer with `radix ^ C ≥ 256` (each byte occupying exactly `C`
characters); in particular `C = 2` for radix 16, `C = 8` for radix 2 and
`C = 2` for radix 36. -/
theorem encode_fixed_width (B : List Nat) (radix : Nat) (hr2 : 2 ≤ radix)
    (hr36 : radix ≤ 36) (hB : ∀ b ∈ B, b < 256) :
    (encodeByteArrayToString B radix).length = B.length * chunkSize radix ∧
    (∀ b < 256, (encodeByte radix b).length = chunkSize radix) ∧
    256 ≤ radix ^ chunkSize radix ∧ (∀ c < chunkSize radix, radix ^ c < 256) ∧
    chunkSize 16 = 2 ∧ chunkSize 2 = 8 ∧ chunkSize 36 = 2 := by
  have hne : ¬ radix = 64 := by omega
  obtain ⟨h1, h2, -, -⟩ := chunkSize_least radix (by omega) hr2
  refine ⟨?_, fun b hb => encodeByte_length radix b hr2 hr36 hb, h1, h2,
    by decide, by decide, by decide⟩
  rw [encodeByteArrayToString, if_neg hne]
  exact flatten_encode_length radix hr2 hr36 B hB

theorem decodeLoop_length (radix : Nat) :
    ∀ (k : Nat) (s : List Char), (decodeLoop radix s k).length = k := by
  intro k
  induction k with
  | zero => intro s; rfl
  | succ k ih => intro s; simp [decodeLoop, ih]

theorem decodeLoop_getD (radix : Nat) :
    ∀ (k : Nat) (s : List Char) (j : Nat), j < k →
      (decodeLoop radix s k).getD j 0 =
        parsedByte ((s.drop (j * chunkSize radix)).take (chunkSize radix)) radix := by
  intro k
  induction k with
  | zero => intro s j hj; omega
  | succ k ih =>
      intro s j hj
      cases j with
      | zero => simp [decodeLoop]
      | succ j =>
          have := ih (s.drop (chunkSize radix)) j (by omega)
          simp only [decodeLoop, List.getD_cons_succ, this, List.drop_drop]
          congr 2
          ring_nf

end ByteArrayConverter

open ByteArrayConverter in
/-- C8: empty input produces empty output without error for all four
operations, at every valid radix: `encrypt` and `encode` of the empty
input give the empty string, `decrypt` and `decode` of the empty string
give the empty string and the empty byte sequence. -/
theorem empty_io (radix : Nat) (hr : validRadix radix) :
    TRA.encrypt [] radix = [] ∧ TRA.decrypt [] radix = some [] ∧
    encodeByteArrayToString [] radix = [] ∧
    decodeStringToByteArray [] radix = some [] := by
  have hdec : decodeStringToByteArray [] radix = some [] := by
    rcases hr with ⟨hr2, hr36⟩ | h64
    · have hne : ¬ radix = 64 := by omega
      obtain ⟨-, -, hcs2, -⟩ := chunkSize_least radix (by omega) hr2
      rw [decodeStringToByteArray, if_neg hne]
      norm_num
      rw [Nat.div_eq_of_lt (by omega)]
      rfl
    · subst h64
      decide
  have henc : encodeByteArrayToString [] radix = [] := by
    rcases hr with ⟨hr2, hr36⟩ | h64
    · have hne : ¬ radix = 64 := by omega
      rw [encodeByteArrayToString, if_neg hne]
      rfl
    · subst h64
      decide
  refine ⟨?_, ?_, henc, hdec⟩
  · show encodeByteArrayToString (TRA.rotate (utf8Encode []) 1) radix = []
    rw [show TRA.rotate (utf8Encode []) 1 = [] from rfl]
    exact henc
  · show (decodeStringToByteArray [] radix).map _ = some []
    rw [hdec]
    simp only [Option.map_some']
    rw [show TRA.rotate [] (-1) = [] from rfl]
    simp [utf8Decode]

namespace ByteArrayConverter

/-- C6: for a radix in [2,36] the decoder never throws: it always
returns a byte array, whose length is the chunk count
`ceil(length / chunkSize)` — a trailing partial chunk is still sliced
and parsed — and a chunk that fails to parse (`NaN`) is substituted
with byte value 0 rather than raising. -/
theorem decode_never_throws (s : List Char) (radix : Nat) (hr2 : 2 ≤ radix)
    (hr36 : radix ≤ 36) :
    ∃ bs, decodeStringToByteArray s radix = some bs ∧
      bs.length = (s.length + (chunkSize radix - 1)) / chunkSize radix ∧
      (∀ chunk : List Char, parseIntJS chunk radix = none →
        parsedByte chunk radix = 0) := by
  have hne : ¬ radix = 64 := by omega
  refine ⟨_, by rw [decodeStringToByteArray, if_neg hne], decodeLoop_length _ _ _, ?_⟩
  intro chunk h
  rw [parsedByte, h]
  rfl

/-- C9: each entry of the decoded array is the value
`parseInt(chunk, radix) || 0` reduced modulo 256 by the `Uint8Array`
store, the chunk being the `chunkSize`-character slice at that index;
an oversized parsed value is silently wrapped rather than an error. -/
theorem decode_entry_wraps (s : List Char) (radix j : Nat) (hr2 : 2 ≤ radix)
    (hr36 : radix ≤ 36)
    (hj : j < (s.length + (chunkSize radix - 1)) / chunkSize radix) :
    ((decodeStringToByteArray s radix).getD []).getD j 0 =
      ((((parseIntJS ((s.drop (j * chunkSize radix)).take (chunkSize radix))
          radix).getD 0) % 256).toNat) := by
  have hne : ¬ radix = 64 := by omega
  rw [decodeStringToByteArray, if_neg hne, Option.getD_some]
  exact decodeLoop_getD radix _ s j hj

theorem valid_digit_range (radix : Nat) (ch : Char)
    (h : isRadixDigit radix ch = true) :
    (48 ≤ ch.toNat ∧ ch.toNat ≤ 57) ∨ (97 ≤ ch.toNat ∧ ch.toNat ≤ 122) ∨
    (65 ≤ ch.toNat ∧ ch.toNat ≤ 90) := by
  have hv : ∃ v, digitVal ch = some v := by
    rw [isRadixDigit] at h
    cases hdv : digitVal ch with
    | none => rw [hdv] at h; simp at h
    | some v => exact ⟨v, rfl⟩
  obtain ⟨v, hv⟩ := hv
  rw [digitVal] at hv
  split_ifs at hv with h1 h2 h3
  · exact Or.inl h1
  · exact Or.inr (Or.inl h2)
  · exact Or.inr (Or.inr h3)

theorem valid_digit_char_facts (radix : Nat) (ch : Char)
    (h : isRadixDigit radix ch = true) :
    isJsWs ch = false ∧ ch ≠ '-' ∧ ch ≠ '+' := by
  have hrange := valid_digit_range radix ch h
  refine ⟨?_, ?_, ?_⟩
  · rw [isJsWs]
    simp only [Bool.or_eq_false_iff, beq_eq_false_iff_ne, ne_eq,
      decide_eq_false_iff_not, not_and, not_le]
    omega
  · intro he
    subst he
    revert hrange
    decide
  · intro he
    subst he
    revert hrange
    decide

theorem parseIntJS_all_invalid (radix : Nat) (hr2 : 2 ≤ radix) (c2 : List Char)
    (h : ∀ ch ∈ c2, isRadixDigit radix ch = false) :
    parseIntJS c2 radix = none := by
  have hzero : isRadixDigit radix '0' = true := by
    rw [isRadixDigit, show digitVal '0' = some 0 from by decide]
    simp
    omega
  have hs1 : ∀ ch ∈ c2.dropWhile isJsWs, isRadixDigit radix ch = false :=
    fun ch hc => h ch ((List.dropWhile_sublist _).subset hc)
  rw [parseIntJS]
  cases ht : c2.dropWhile isJsWs with
  | nil => simp [ht]
  | cons h0 t0 =>
      rw [ht] at hs1
      have hh0 : isRadixDigit radix h0 = false := hs1 h0 (by simp)
      have hne0 : ∀ ch ∈ h0 :: t0, ¬ ch = '0' := by
        intro ch hc he
        subst he
        rw [hs1 _ hc] at hzero
        cases hzero
      simp only [List.headD_cons, List.tail_cons]
      by_cases hsign : h0 = '-' ∨ h0 = '+'
      · rw [if_pos hsign]
        cases t0 with
        | nil => simp
        | cons h1 t1 =>
            have hh1 : isRadixDigit radix h1 = false := hs1 h1 (by simp)
            have hne1 : ¬ h1 = '0' := hne0 h1 (by simp)
            simp only [List.headD_cons]
            rw [if_neg (show ¬ (radix = 16 ∧ h1 = '0' ∧
                ((h1 :: t1).tail.headD ' ' = 'x' ∨ (h1 :: t1).tail.headD ' ' = 'X'))
              from fun hcon => hne1 hcon.2.1)]
            simp [List.takeWhile_cons, hh1]
  -- no-sign branch handled below
      · rw [if_neg hsign]
        simp only [List.headD_cons]
        rw [if_neg (show ¬ (radix = 16 ∧ h0 = '0' ∧
            ((h0 :: t0).tail.headD ' ' = 'x' ∨ (h0 :: t0).tail.headD ' ' = 'X'))
          from fun hcon => hne0 h0 (by simp) hcon.2.1)]
        simp [List.takeWhile_cons, hh0]

theorem takeWhile_append_valid (p : Char → Bool) :
    ∀ (ds es : List Char), (∀ c ∈ ds, p c = true) → p (es.headD ' ') = false →
      es ≠ [] → (ds ++ es).takeWhile p = ds := by
  intro ds
  induction ds with
  | nil =>
      intro es _ hhead hne
      cases es with
      | nil => exact absurd rfl hne
      | cons e t =>
          simp only [List.headD_cons] at hhead
          simp [List.takeWhile_cons, hhead]
  | cons d dt ih =>
      intro es hv hhead hne
      have hd : p d = true := hv d (by simp)
      simp only [List.cons_append, List.takeWhile_cons, hd, if_true]
      rw [ih es (fun c hc => hv c (List.mem_cons_of_mem _ hc)) hhead hne]

theorem digitsVal_lt_pow (radix : Nat) (_hr2 : 2 ≤ radix) :
    ∀ (ds : List Char) (a : Nat), (∀ c ∈ ds, isRadixDigit radix c = true) →
      List.foldl (fun a c => a * radix + (digitVal c).getD 0) a ds <
        (a + 1) * radix ^ ds.length := by
  intro ds
  induction ds with
  | nil => intro a _; simp
  | cons c t ih =>
      intro a hv
      have hc := hv c (by simp)
      have hd : (digitVal c).getD 0 < radix := by
        rw [isRadixDigit] at hc
        cases hdv : digitVal c with
        | none => rw [hdv] at hc; simp at hc
        | some v =>
            rw [hdv] at hc
            simp only [decide_eq_true_eq] at hc
            simpa [hdv] using hc
      simp only [List.foldl_cons, List.length_cons]
      calc List.foldl (fun a c => a * radix + (digitVal c).getD 0)
              (a * radix + (digitVal c).getD 0) t
          < (a * radix + (digitVal c).getD 0 + 1) * radix ^ t.length :=
            ih _ (fun x hx => hv x (List.mem_cons_of_mem _ hx))
        _ ≤ ((a + 1) * radix) * radix ^ t.length := by
            have hstep : a * radix + (digitVal c).getD 0 + 1 ≤ (a + 1) * radix := by
              have : (a + 1) * radix = a * radix + radix := by ring
              omega
            exact Nat.mul_le_mul_right _ hstep
        _ = (a + 1) * radix ^ (t.length + 1) := by ring

/-- C10: a chunk consisting of a nonempty prefix of valid radix digits
followed by an invalid character decodes to the integer value of that
valid prefix (necessarily below 256, the prefix being shorter than the
chunk width) rather than to 0 — `parseInt` takes the longest valid
prefix — while a chunk with no valid digit at all parses to `NaN` and
decodes to 0. -/
theorem parse_longest_prefix (radix : Nat) (ds es : List Char)
    (hr2 : 2 ≤ radix) (hr36 : radix ≤ 36)
    (hlen : (ds ++ es).length ≤ chunkSize radix)
    (hds : ds ≠ []) (hdsv : ∀ ch ∈ ds, isRadixDigit radix ch = true)
    (hes : es ≠ []) (hesh : isRadixDigit radix (es.headD ' ') = false) :
    parsedByte (ds ++ es) radix = digitsVal radix ds ∧
    digitsVal radix ds < 256 ∧
    (∀ c2 : List Char, (∀ ch ∈ c2, isRadixDigit radix ch = false) →
      parsedByte c2 radix = 0) := by
  obtain ⟨hpow, hlt, hcs2, hcs8⟩ := chunkSize_least radix (by omega) hr2
  have hes1 : 1 ≤ es.length := List.length_pos.mpr hes
  have hdbound : digitsVal radix ds < 256 := by
    have h1 : digitsVal radix ds < radix ^ ds.length := by
      have := digitsVal_lt_pow radix hr2 ds 0 hdsv
      simpa [digitsVal] using this
    have h2 : ds.length < chunkSize radix := by
      have := hlen
      simp only [List.length_append] at this
      omega
    have h3 : radix ^ ds.length ≤ radix ^ (chunkSize radix - 1) :=
      Nat.pow_le_pow_right (by omega) (by omega)
    have h4 : radix ^ (chunkSize radix - 1) < 256 := hlt _ (by omega)
    omega
  refine ⟨?_, hdbound, fun c2 hc2 => ?_⟩
  case refine_2 =>
    rw [parsedByte, parseIntJS_all_invalid radix hr2 c2 hc2]
    rfl
  obtain ⟨c0, dt, rfl⟩ : ∃ c0 dt, ds = c0 :: dt := by
    cases ds with
    | nil => exact absurd rfl hds
    | cons a l => exact ⟨a, l, rfl⟩
  have hc0v := hdsv c0 (by simp)
  obtain ⟨hws0, hm0, hp0⟩ := valid_digit_char_facts radix c0 hc0v
  rw [parsedByte, parseIntJS]
  simp only [List.cons_append, List.dropWhile_cons, hws0, Bool.false_eq_true,
    if_false, List.headD_cons, List.tail_cons]
  rw [if_neg hm0, if_neg (show ¬ (c0 = '-' ∨ c0 = '+') from by tauto)]
  simp only [List.headD_cons, List.tail_cons]
  by_cases hx : radix = 16 ∧ c0 = '0' ∧
      ((dt ++ es).headD ' ' = 'x' ∨ (dt ++ es).headD ' ' = 'X')
  · have hC : chunkSize radix = 2 := by rw [hx.1]; decide
    have hdt : dt = [] := by
      cases dt with
      | nil => rfl
      | cons a t =>
          exfalso
          simp only [List.length_append, List.length_cons] at hlen
          omega
    subst hdt
    obtain ⟨e, rfl⟩ : ∃ e, es = [e] := by
      cases es with
      | nil => exact absurd rfl hes
      | cons e t =>
          cases t with
          | nil => exact ⟨e, rfl⟩
          | cons b u =>
              exfalso
              simp only [List.length_append, List.length_cons,
                List.length_nil] at hlen
              omega
    rw [if_pos hx]
    simp only [List.nil_append, List.tail_cons, List.takeWhile_nil,
      List.isEmpty_nil, if_true, Option.getD_none]
    rw [hx.2.1]
    simp [digitsVal, show digitVal '0' = some 0 from by decide]
  · rw [if_neg hx, ← List.cons_append,
      takeWhile_append_valid _ (c0 :: dt) es hdsv hesh hes]
    simp only [List.isEmpty_cons, Bool.false_eq_true, if_false,
      Option.getD_some, one_mul]
    omega

end ByteArrayConverter

namespace TRA

theorem rotateGo_getD (len : Nat) (r : Int) :
    ∀ (bs : List Nat) (i p : Nat), p < bs.length →
      (rotateGo len r i bs).getD p 0 =
        (((bs.getD p 0 : Int) + (offsetAt len (i + p) : Int) * r) % 256).toNat := by
  intro bs
  induction bs with
  | nil => intro i p hp; simp at hp
  | cons b t ih =>
      intro i p hp
      cases p with
      | zero => simp [rotateGo]
      | succ p =>
          simp only [rotateGo, List.getD_cons_succ]
          rw [ih (i + 1) p (by simpa using hp)]
          rw [show i + 1 + p = i + (p + 1) by omega]

/-- C7: for two byte sequences of the same length, the same direction
and the same position, the offset the rotation applies is identical
modulo 256: the mixing table `K` and the per-position offset are
functions of the length and the position only, never of the bytes'
values. -/
theorem offset_uniform (B1 B2 : List Nat) (d : Int) (p : Nat)
    (hlen : B1.length = B2.length) (hp : p < B1.length)
    (hd : d = 1 ∨ d = -1) :
    (((rotate B1 d).getD p 0 : Int) - (B1.getD p 0 : Int)) % 256 =
    (((rotate B2 d).getD p 0 : Int) - (B2.getD p 0 : Int)) % 256 := by
  have hd0 : ¬ d = 0 := by rcases hd with h | h <;> simp [h]
  rw [rotate, if_neg hd0, rotate, if_neg hd0]
  rw [rotateGo_getD B1.length d B1 0 p hp,
    rotateGo_getD B2.length d B2 0 p (hlen ▸ hp)]
  rw [← hlen]
  rcases hd with h | h <;> subst h <;> omega

end TRA

theorem char_toNat_valid (c : Char) :
    c.toNat < 0xD800 ∨ (0xDFFF < c.toNat ∧ c.toNat < 0x110000) := c.valid

theorem utf8EncodeChar_lt (c : Char) : ∀ b ∈ utf8EncodeChar c, b < 256 := by
  have hv := char_toNat_valid c
  rw [utf8EncodeChar]
  split_ifs with h1 h2 h3 <;> intro b hb <;>
    simp only [List.mem_cons, List.mem_singleton, List.not_mem_nil,
      or_false] at hb
  · omega
  · rcases hb with h | h <;> omega
  · rcases hb with h | h | h <;> omega
  · rcases hb with h | h | h | h <;> omega

theorem utf8Encode_lt (s : List Char) : ∀ b ∈ utf8Encode s, b < 256 := by
  intro b hb
  rw [utf8Encode] at hb
  obtain ⟨l, hl, hbl⟩ := List.mem_flatten.mp hb
  obtain ⟨c, -, rfl⟩ := List.mem_map.mp hl
  exact utf8EncodeChar_lt c b hbl

theorem utf8Decode_encodeChar (c : Char) (rest : List Nat) :
    utf8Decode (utf8EncodeChar c ++ rest) = c :: utf8Decode rest := by
  have hv := char_toNat_valid c
  have hofn : Char.ofNat c.toNat = c := Char.ofNat_toNat c
  rw [utf8EncodeChar]
  by_cases h1 : c.toNat < 0x80
  · rw [if_pos h1]
    have hstep : utf8Step c.toNat rest = (Char.ofNat c.toNat, 1) := by
      rw [utf8Step.eq_def, if_pos h1]
    simp only [List.singleton_append]
    rw [utf8Decode, hstep, hofn]
    simp
  · by_cases h2 : c.toNat < 0x800
    · rw [if_neg h1, if_pos h2]
      have hstep : utf8Step (0xC0 + c.toNat / 64) ((0x80 + c.toNat % 64) :: rest) =
          (Char.ofNat c.toNat, 2) := by
        rw [utf8Step.eq_def]
        rw [if_neg (by omega), if_neg (by omega), if_pos (by omega)]
        simp only []
        rw [if_pos (show contByte (0x80 + c.toNat % 64) = true by
          simp only [contByte, decide_eq_true_eq]; omega)]
        rw [show (0xC0 + c.toNat / 64 - 0xC0) * 64 + (0x80 + c.toNat % 64 - 0x80)
            = c.toNat by omega]
      simp only [List.cons_append, List.nil_append]
      rw [utf8Decode, hstep, hofn]
      simp
    · by_cases h3 : c.toNat < 0x10000
      · rw [if_neg h1, if_neg h2, if_pos h3]
        have hlead : lead3Snd (0xE0 + c.toNat / 4096) (0x80 + c.toNat / 64 % 64)
            = true := by
          rw [lead3Snd]
          split_ifs with hE0 hED
          · simp only [decide_eq_true_eq]
            omega
          · simp only [decide_eq_true_eq]
            omega
          · simp only [contByte, decide_eq_true_eq]
            omega
        have hstep : utf8Step (0xE0 + c.toNat / 4096)
            ((0x80 + c.toNat / 64 % 64) :: (0x80 + c.toNat % 64) :: rest) =
            (Char.ofNat c.toNat, 3) := by
          rw [utf8Step.eq_def]
          rw [if_neg (by omega), if_neg (by omega), if_neg (by omega),
            if_pos (by omega)]
          simp only []
          rw [if_pos hlead]
          rw [if_pos (show contByte (0x80 + c.toNat % 64) = true by
            simp only [contByte, decide_eq_true_eq]; omega)]
          rw [show (0xE0 + c.toNat / 4096 - 0xE0) * 4096 +
              (0x80 + c.toNat / 64 % 64 - 0x80) * 64 +
              (0x80 + c.toNat % 64 - 0x80) = c.toNat by omega]
        simp only [List.cons_append, List.nil_append]
        rw [utf8Decode, hstep, hofn]
        simp
      · rw [if_neg h1, if_neg h2, if_neg h3]
        have hlead : lead4Snd (0xF0 + c.toNat / 0x40000)
            (0x80 + c.toNat / 4096 % 64) = true := by
          rw [lead4Snd]
          split_ifs with hF0 hF4
          · simp only [decide_eq_true_eq]
            omega
          · simp only [decide_eq_true_eq]
            omega
          · simp only [contByte, decide_eq_true_eq]
            omega
        have hstep : utf8Step (0xF0 + c.toNat / 0x40000)
            ((0x80 + c.toNat / 4096 % 64) :: (0x80 + c.toNat / 64 % 64) ::
              (0x80 + c.toNat % 64) :: rest) =
            (Char.ofNat c.toNat, 4) := by
          rw [utf8Step.eq_def]
          rw [if_neg (by omega), if_neg (by omega), if_neg (by omega),
            if_neg (by omega), if_pos (by omega)]
          simp only []
          rw [if_pos hlead]
          rw [if_pos (show contByte (0x80 + c.toNat / 64 % 64) = true by
            simp only [contByte, decide_eq_true_eq]; omega)]
          rw [if_pos (show contByte (0x80 + c.toNat % 64) = true by
            simp only [contByte, decide_eq_true_eq]; omega)]
          rw [show (0xF0 + c.toNat / 0x40000 - 0xF0) * 0x40000 +
              (0x80 + c.toNat / 4096 % 64 - 0x80) * 4096 +
              (0x80 + c.toNat / 64 % 64 - 0x80) * 64 +
              (0x80 + c.toNat % 64 - 0x80) = c.toNat by omega]
        simp only [List.cons_append, List.nil_append]
        rw [utf8Decode, hstep, hofn]
        simp

theorem utf8_round_trip (s : List Char) : utf8Decode (utf8Encode s) = s := by
  induction s with
  | nil => rw [show utf8Encode [] = [] from rfl, utf8Decode]
  | cons c t ih =>
      show utf8Decode (utf8EncodeChar c ++ utf8Encode t) = c :: t
      rw [utf8Decode_encodeChar, ih]

open ByteArrayConverter in
/-- C1: for every string of Unicode scalar values and every valid
radix, `decrypt(encrypt(S, R), R)` returns exactly `S`: encrypt UTF-8
encodes, rotates with direction +1 and radix-encodes; decrypt
radix-decodes, rotates with direction -1 and UTF-8 decodes. -/
theorem tra_round_trip (s : List Char) (radix : Nat) (hr : validRadix radix) :
    TRA.decrypt (TRA.encrypt s radix) radix = some s := by
  have hB : ∀ b ∈ utf8Encode s, b < 256 := utf8Encode_lt s
  have hrot : ∀ b ∈ TRA.rotate (utf8Encode s) 1, b < 256 :=
    TRA.rotate_all_lt _ _ hB
  rw [TRA.encrypt, TRA.decrypt, codec_round_trip_aux _ radix hr hrot]
  simp only [Option.map_some']
  rw [(TRA.rotate_symm_aux (utf8Encode s) hB).1, utf8_round_trip]

namespace ByteArrayConverter

/-- C5: for well-typed byte/string inputs, encode and decode raise a
`TypeError` exactly when the radix is not an integer, and a
`RangeError` exactly when it is an integer outside [2,36] and not 64;
both are raised before any codec computation (by construction of the
checked wrappers) and the two kinds are distinct. -/
theorem validation_errors (byteArray : List Nat) (s : List Char) (radix : ℚ) :
    (encodeChecked byteArray radix = .error .typeError ↔ ¬ radix.isInt) ∧
    (encodeChecked byteArray radix = .error .rangeError ↔
      radix.isInt ∧ ((radix < 2 ∨ radix > 36) ∧ radix ≠ 64)) ∧
    (decodeChecked s radix = .error .typeError ↔ ¬ radix.isInt) ∧
    (decodeChecked s radix = .error .rangeError ↔
      radix.isInt ∧ ((radix < 2 ∨ radix > 36) ∧ radix ≠ 64)) ∧
    JsError.typeError ≠ JsError.rangeError := by
  refine ⟨?_, ?_, ?_, ?_, by simp⟩
  · by_cases h1 : radix.isInt
    · by_cases h2 : (radix < 2 ∨ radix > 36) ∧ radix ≠ 64
      · simp [encodeChecked, h1, h2]
      · simp [encodeChecked, h1, h2]
    · simp [encodeChecked, h1]
  · by_cases h1 : radix.isInt
    · by_cases h2 : (radix < 2 ∨ radix > 36) ∧ radix ≠ 64
      · simp [encodeChecked, h1, h2]
      · simp [encodeChecked, h1, h2]
    · simp [encodeChecked, h1]
  · by_cases h1 : radix.isInt
    · by_cases h2 : (radix < 2 ∨ radix > 36) ∧ radix ≠ 64
      · simp [decodeChecked, h1, h2]
      · cases hd : decodeStringToByteArray s radix.num.toNat <;>
          simp [decodeChecked, h1, h2, hd, Option.elim]
    · simp [decodeChecked, h1]
  · by_cases h1 : radix.isInt
    · by_cases h2 : (radix < 2 ∨ radix > 36) ∧ radix ≠ 64
      · simp [decodeChecked, h1, h2]
      · cases hd : decodeStringToByteArray s radix.num.toNat <;>
          simp [decodeChecked, h1, h2, hd, Option.elim]
    · simp [decodeChecked, h1]

end ByteArrayConverter

/-- Witness for C1 at the concrete input "Hi!" with radix 16. -/
theorem tra_round_trip_witness :
    validRadix 16 ∧
    TRA.decrypt (TRA.encrypt "Hi!".toList 16) 16 = some "Hi!".toList :=
  ⟨by decide, tra_round_trip "Hi!".toList 16 (by decide)⟩

/-- Witness for C2 at the concrete byte sequence [72, 255, 0]. -/
theorem rotate_symm_witness :
    (∀ b ∈ [72, 255, 0], b < 256) ∧
    (TRA.rotate (TRA.rotate [72, 255, 0] 1) (-1) = [72, 255, 0] ∧
      TRA.rotate (TRA.rotate [72, 255, 0] (-1)) 1 = [72, 255, 0]) :=
  ⟨by decide, TRA.rotate_symm [72, 255, 0] (by decide)⟩

/-- Witness for C3 at the bytes [15, 255, 128] with radix 16. -/
theorem codec_round_trip_witness :
    validRadix 16 ∧ (∀ b ∈ [15, 255, 128], b < 256) ∧
    ByteArrayConverter.decodeStringToByteArray
      (ByteArrayConverter.encodeByteArrayToString [15, 255, 128] 16) 16 =
      some [15, 255, 128] :=
  ⟨by decide, by decide,
    ByteArrayConverter.codec_round_trip [15, 255, 128] 16 (by decide) (by decide)⟩

/-- Witness for C4 at the bytes [15, 255, 128] with radix 16. -/
theorem encode_fixed_width_witness :
    2 ≤ 16 ∧ 16 ≤ 36 ∧ (∀ b ∈ [15, 255, 128], b < 256) ∧
    ((ByteArrayConverter.encodeByteArrayToString [15, 255, 128] 16).length =
        ([15, 255, 128] : List Nat).length * ByteArrayConverter.chunkSize 16 ∧
      (∀ b < 256, (ByteArrayConverter.encodeByte 16 b).length =
        ByteArrayConverter.chunkSize 16) ∧
      256 ≤ 16 ^ ByteArrayConverter.chunkSize 16 ∧
      (∀ c < ByteArrayConverter.chunkSize 16, 16 ^ c < 256) ∧
      ByteArrayConverter.chunkSize 16 = 2 ∧ ByteArrayConverter.chunkSize 2 = 8 ∧
      ByteArrayConverter.chunkSize 36 = 2) :=
  ⟨by decide, by decide, by decide,
    ByteArrayConverter.encode_fixed_width [15, 255, 128] 16 (by decide) (by decide)
      (by decide)⟩

/-- Witness for C6 at the odd-length input "abc" with radix 16. -/
theorem decode_never_throws_witness :
    2 ≤ 16 ∧ 16 ≤ 36 ∧
    (∃ bs, ByteArrayConverter.decodeStringToByteArray "abc".toList 16 = some bs ∧
      bs.length = ("abc".toList.length + (ByteArrayConverter.chunkSize 16 - 1)) /
        ByteArrayConverter.chunkSize 16 ∧
      (∀ chunk : List Char, ByteArrayConverter.parseIntJS chunk 16 = none →
        ByteArrayConverter.parsedByte chunk 16 = 0)) :=
  ⟨by decide, by decide,
    ByteArrayConverter.decode_never_throws "abc".toList 16 (by decide) (by decide)⟩

/-- Witness for C7 at the same-length sequences [0, 0] and [255, 7],
direction +1, position 0. -/
theorem offset_uniform_witness :
    ([0, 0] : List Nat).length = ([255, 7] : List Nat).length ∧
    0 < ([0, 0] : List Nat).length ∧ ((1 : Int) = 1 ∨ (1 : Int) = -1) ∧
    (((TRA.rotate [0, 0] 1).getD 0 0 : Int) - (([0, 0] : List Nat).getD 0 0 : Int)) % 256 =
      (((TRA.rotate [255, 7] 1).getD 0 0 : Int) -
        (([255, 7] : List Nat).getD 0 0 : Int)) % 256 :=
  ⟨by decide, by decide, Or.inl rfl,
    TRA.offset_uniform [0, 0] [255, 7] 1 0 (by decide) (by decide) (Or.inl rfl)⟩

/-- Witness for C8 at radix 2. -/
theorem empty_io_witness :
    validRadix 2 ∧
    (TRA.encrypt [] 2 = [] ∧ TRA.decrypt [] 2 = some [] ∧
      ByteArrayConverter.encodeByteArrayToString [] 2 = [] ∧
      ByteArrayConverter.decodeStringToByteArray [] 2 = some []) :=
  ⟨by decide, empty_io 2 (by decide)⟩

/-- Witness for C9 at the chunk "zz" with radix 36, whose parsed value
1295 wraps to byte 15. -/
theorem decode_entry_wraps_witness :
    2 ≤ 36 ∧ 36 ≤ 36 ∧
    0 < ("zz".toList.length + (ByteArrayConverter.chunkSize 36 - 1)) /
      ByteArrayConverter.chunkSize 36 ∧
    ((ByteArrayConverter.decodeStringToByteArray "zz".toList 36).getD []).getD 0 0 =
      ((((ByteArrayConverter.parseIntJS
          (("zz".toList.drop (0 * ByteArrayConverter.chunkSize 36)).take
            (ByteArrayConverter.chunkSize 36)) 36).getD 0) % 256).toNat) ∧
    ((ByteArrayConverter.decodeStringToByteArray "zz".toList 36).getD []).getD 0 0 = 15 :=
  ⟨by decide, by decide, by decide,
    ByteArrayConverter.decode_entry_wraps "zz".toList 36 0 (by decide) (by decide)
      (by decide), by decide⟩

/-- Witness for C10 at the chunk "1z" with radix 16, which decodes to
byte 1, the value of the valid prefix "1". -/
theorem parse_longest_prefix_witness :
    2 ≤ 16 ∧ 16 ≤ 36 ∧ ((['1'] ++ ['z']).length ≤ ByteArrayConverter.chunkSize 16) ∧
    (['1'] : List Char) ≠ [] ∧ (∀ ch ∈ ['1'], ByteArrayConverter.isRadixDigit 16 ch = true) ∧
    (['z'] : List Char) ≠ [] ∧
    ByteArrayConverter.isRadixDigit 16 (['z'].headD ' ') = false ∧
    (ByteArrayConverter.parsedByte (['1'] ++ ['z']) 16 =
        ByteArrayConverter.digitsVal 16 ['1'] ∧
      ByteArrayConverter.digitsVal 16 ['1'] < 256 ∧
      (∀ c2 : List Char, (∀ ch ∈ c2, ByteArrayConverter.isRadixDigit 16 ch = false) →
        ByteArrayConverter.parsedByte c2 16 = 0)) ∧
    ByteArrayConverter.parsedByte (['1'] ++ ['z']) 16 = 1 :=
  ⟨by decide, by decide, by decide, by decide, by decide, by decide, by decide,
    ByteArrayConverter.parse_longest_prefix 16 ['1'] ['z'] (by decide) (by decide)
      (by decide) (by decide) (by decide) (by decide) (by decide), by decide⟩

end StorageManager
